import Mathlib

/-!
Shallow embedding of the definition/reference resolution engine of the
sql-fuzzy-outliner editor extension.

Texts are modelled as `List Char`; positions inside a text are byte/char
offsets (`Nat`).  The host editor's `positionAt`/`offsetAt` translation
between offsets and line/column pairs is a bijection on a fixed text, so
locations are modelled directly as offset spans.  JavaScript `Map`s are
modelled as association lists with the same first-key-wins lookup and
in-place-overwrite insertion.  External collaborators (the graphql parser,
the host's word-range computation, workspace file enumeration) appear as
data carried by the document model, exactly as the code consumes them.
-/

/-- Half-open offset span `[start, stop)` inside a document text. -/
structure Span where
  start : Nat
  stop : Nat
deriving DecidableEq, Repr

/-- A `vscode.Location`: a document identifier together with a span. -/
structure Location where
  uri : String
  span : Span
deriving DecidableEq, Repr

/-- JavaScript `\w` character class: ASCII letters, digits and underscore. -/
def wordChar (c : Char) : Bool :=
  c.isAlpha || c.isDigit || c == '_'

/-- `text.substring i (i+len)` as a list slice. -/
def sliceL (text : List Char) (i len : Nat) : List Char :=
  (text.drop i).take len

/-- The text covered by a span. -/
def sliceSpan (text : List Char) (s : Span) : List Char :=
  sliceL text s.start (s.stop - s.start)

/-- Lookup in a JavaScript `Map<string, Location>` (first matching key). -/
def mapGet (m : List (String × Location)) (k : String) : Option Location :=
  (m.find? (fun kv => kv.1 == k)).map (fun kv => kv.2)

/-- `Map.set`: overwrite the value in place when the key exists, append otherwise. -/
def mapSet (m : List (String × Location)) (k : String) (v : Location) :
    List (String × Location) :=
  if m.any (fun kv => kv.1 == k) then
    m.map (fun kv => if kv.1 == k then (k, v) else kv)
  else
    m ++ [(k, v)]

/-- JavaScript whitespace (`\s`), restricted to the ASCII range. -/
def jsSpace (c : Char) : Bool :=
  c == ' ' || c == '\t' || c == '\n' || c == '\r' || c == '\x0b' || c == '\x0c'

/-- Lowercase every character (JavaScript `String.toLowerCase` on ASCII data). -/
def toLowerL (l : List Char) : List Char :=
  l.map Char.toLower

/-- Case-insensitive equality of two character lists. -/
def lowerEq (a b : List Char) : Bool :=
  decide (toLowerL a = toLowerL b)

/-- Regex metacharacters replaced by `escapeRegex` in the SQL providers:
`str.replace(/[.*+?^$\x7b\x7d()|[\]\\]/g, ...)`. -/
def regexMeta (c : Char) : Bool :=
  c == '.' || c == '*' || c == '+' || c == '?' || c == '^' || c == '$' ||
  c == '\x7b' || c == '\x7d' || c == '(' || c == ')' || c == '|' ||
  c == '[' || c == ']' || c == '\\'

/-- `escapeRegex`: prefix every regex metacharacter with a backslash. -/
def escapeRegex (w : List Char) : List Char :=
  (w.map (fun c => if regexMeta c then ['\\', c] else [c])).flatten

/-- Whole-word match of the literal `name` at offset `i` of `text`: the regex
`\b name \b` (for a `name` made of word characters) matches exactly when the
slice at `i` equals `name` and both neighbouring characters, when they exist,
are not word characters. -/
def matchAt (text name : List Char) (i : Nat) : Bool :=
  decide (sliceL text i name.length = name) &&
  (decide (i = 0) || !wordChar (text.getD (i - 1) ' ')) &&
  (decide (text.length ≤ i + name.length) || !wordChar (text.getD (i + name.length) ' '))

/-- Case-insensitive whole-word match (the same regex compiled with the `i`
flag): the slice is compared lowercased, the `\b` boundary tests are on the
actual text characters. -/
def matchAtCI (text name : List Char) (i : Nat) : Bool :=
  lowerEq (sliceL text i name.length) name &&
  (decide (i = 0) || !wordChar (text.getD (i - 1) ' ')) &&
  (decide (text.length ≤ i + name.length) || !wordChar (text.getD (i + name.length) ' '))

/-- All offsets `< n` satisfying `p`, in increasing order. -/
def occAllBy (n : Nat) (p : Nat → Bool) : List Nat :=
  (List.range n).filter p

/-- First offset `≥ i` and `< n` satisfying `p`: the search a JavaScript
global regex performs from `lastIndex = i`. -/
def firstFromBy (n : Nat) (p : Nat → Bool) (i : Nat) : Option Nat :=
  ((occAllBy n p).filter (fun j => decide (i ≤ j))).head?

/-- The `while ((match = pattern.exec(text)) !== null)` loop: repeatedly find
the first match position at or after the current `lastIndex`, then advance
`lastIndex` past the matched literal (of length `len`).  `fuel` bounds the
recursion; `n + 1` steps always suffice for a non-empty literal. -/
def execGo (n : Nat) (p : Nat → Bool) (len : Nat) : Nat → Nat → List Nat
  | 0, _ => []
  | fuel + 1, i =>
    match firstFromBy n p i with
    | none => []
    | some j => j :: execGo n p len fuel (j + len)

/-- All match positions produced by the JavaScript exec loop over a text of
length `n`, for a literal of length `len` matched by `p`. -/
def execMatches (n : Nat) (p : Nat → Bool) (len : Nat) : List Nat :=
  execGo n p len (n + 1) 0

/-- Declarative reading of the scan contract: the positions of every match of
the whole-word regex `\b name \b` over the full text. -/
def wholeWordOccurrences (text name : List Char) : List Nat :=
  occAllBy text.length (matchAt text name)

/-! ### GraphQL syntax tree and document model

The graphql `parse` function is a consumed collaborator (spec §6): the engine
only inspects the shape of its output.  A `DefNode` carries exactly the data
`graphqlDefinitionProvider.ts` reads off a top-level definition: its source
span, its name node (value and span), for type-like definitions the list of
field name nodes (absent for kinds without a `fields` property, such as
enum/union/scalar), and for fragment definitions the type condition name.
Operation definitions and any other kinds the provider ignores are
`otherDef`. -/

/-- A graphql AST name node: string value plus optional source span. -/
structure NameNode where
  value : String
  loc : Option Span
deriving DecidableEq, Repr

/-- A type-like top-level definition (object / interface / input / enum /
union / scalar type definition). `fields` is `none` when the node kind has no
`fields` property. -/
structure TypeDefNode where
  name : NameNode
  loc : Option Span
  fields : Option (List NameNode)
deriving DecidableEq, Repr

/-- A fragment definition: name, type condition name, source span. -/
structure FragmentDefNode where
  name : NameNode
  typeCondition : String
  loc : Option Span
deriving DecidableEq, Repr

/-- A top-level definition of a parsed graphql document, as consumed by the
definition provider. -/
inductive DefNode where
  | typeDef (t : TypeDefNode)
  | fragmentDef (f : FragmentDefNode)
  | otherDef (loc : Option Span)
deriving DecidableEq, Repr

/-- A text document as the GraphQL engine observes it.  `parseResult` is the
outcome of the collaborator `parse(text)` (`none` models a thrown parse
error); `wordRangeAt` is the host's `getWordRangeAtPosition`, giving the span
of the word containing a given offset, if any; `isGraphQL` is the outcome of
the `isGraphQLFile` language/extension test. -/
structure GQLDocument where
  uri : String
  text : List Char
  isGraphQL : Bool
  parseResult : Option (List DefNode)
  wordRangeAt : Nat → Option Span

/-- One slot of the unified definitions cache: the three lookup tables built
from one document. -/
structure CacheEntry where
  typeDefinitions : List (String × Location)
  fieldDefinitions : List (String × Location)
  fragmentDefinitions : List (String × Location)
deriving DecidableEq, Repr

/-- The empty cache slot. -/
def CacheEntry.empty : CacheEntry :=
  ⟨[], [], []⟩

/-- The process-wide definitions cache: document URI to cache slot. -/
abbrev Cache := List (String × CacheEntry)

/-- Slot lookup (JavaScript `Map.get`). -/
def cacheGet (c : Cache) (uri : String) : Option CacheEntry :=
  (List.find? (fun kv => kv.1 == uri) c).map (fun kv => kv.2)

/-- Slot replacement (JavaScript `Map.set`). -/
def cacheSet (c : Cache) (uri : String) (e : CacheEntry) : Cache :=
  if c.any (fun kv => kv.1 == uri) then
    c.map (fun kv => if kv.1 == uri then (uri, e) else kv)
  else
    c ++ [(uri, e)]

/-- Record one top-level definition into a cache slot, exactly as the loop
body of `updateCacheForDocument` does: a type-like definition stores its name
(when the name node has a span) and a `Type.field` entry for each of its
field name nodes (when the field name node has a span); a fragment definition
stores its own name; anything else is skipped. -/
def addDef (uri : String) (e : CacheEntry) (d : DefNode) : CacheEntry :=
  match d with
  | .typeDef t =>
    let e1 :=
      match t.name.loc with
      | some l => { e with typeDefinitions := mapSet e.typeDefinitions t.name.value ⟨uri, l⟩ }
      | none => e
    match t.fields with
    | some fs =>
      { e1 with
        fieldDefinitions := fs.foldl (fun m f =>
          match f.loc with
          | some fl => mapSet m (t.name.value ++ "." ++ f.value) ⟨uri, fl⟩
          | none => m) e1.fieldDefinitions }
    | none => e1
  | .fragmentDef fr =>
    match fr.name.loc with
    | some l => { e with fragmentDefinitions := mapSet e.fragmentDefinitions fr.name.value ⟨uri, l⟩ }
    | none => e
  | .otherDef _ => e

/-- Build the fresh cache slot for a document from its parsed definitions
(single traversal of the top-level definition list). -/
def buildCacheEntry (uri : String) (defs : List DefNode) : CacheEntry :=
  defs.foldl (addDef uri) CacheEntry.empty

/-- `updateCacheForDocument`: non-GraphQL documents are ignored; a parse
failure returns without touching the cache; on success the document's slot is
replaced wholesale with freshly extracted tables. -/
def updateCacheForDocument (c : Cache) (doc : GQLDocument) : Cache :=
  if !doc.isGraphQL then c
  else
    match doc.parseResult with
    | none => c
    | some defs => cacheSet c doc.uri (buildCacheEntry doc.uri defs)

/-- The shared same-file-first lookup of `findTypeDefinition`,
`findFieldDefinition` and `findFragmentDefinition`: if the current document's
slot holds the key, return that single location; otherwise return every match
from the other slots, or `none` when there is no match at all. -/
def sameFileFirstLookup (tableOf : CacheEntry → List (String × Location))
    (c : Cache) (key : String) (currentUri : String) : Option (List Location) :=
  let globalPart : Option (List Location) :=
    let locations := c.filterMap (fun kv =>
      if kv.1 ≠ currentUri then mapGet (tableOf kv.2) key else none)
    if locations.length > 0 then some locations else none
  match cacheGet c currentUri with
  | some e =>
    match mapGet (tableOf e) key with
    | some l => some [l]
    | none => globalPart
  | none => globalPart

/-- `findTypeDefinition` — prioritize definitions in the same file. -/
def findTypeDefinition (c : Cache) (typeName : String) (currentUri : String) :
    Option (List Location) :=
  sameFileFirstLookup (fun e => e.typeDefinitions) c typeName currentUri

/-- `findFragmentDefinition` — prioritize definitions in the same file. -/
def findFragmentDefinition (c : Cache) (fragmentName : String) (currentUri : String) :
    Option (List Location) :=
  sameFileFirstLookup (fun e => e.fragmentDefinitions) c fragmentName currentUri

/-- Containment test `def.loc && def.loc.start <= offset && offset <= def.loc.end`
used by `getParentTypeName`. -/
def locContains (loc : Option Span) (offset : Nat) : Bool :=
  match loc with
  | some l => decide (l.start ≤ offset) && decide (offset ≤ l.stop)
  | none => false

/-- Walk the top-level definitions in order; the first type-like definition
whose span contains the offset yields its name, the first fragment definition
whose span contains the offset yields its type condition name; other
definition kinds never yield a name even when their span contains the
offset. -/
def findParentIn : List DefNode → Nat → Option String
  | [], _ => none
  | d :: rest, offset =>
    match d with
    | .typeDef t =>
      if locContains t.loc offset then some t.name.value else findParentIn rest offset
    | .fragmentDef f =>
      if locContains f.loc offset then some f.typeCondition else findParentIn rest offset
    | .otherDef _ => findParentIn rest offset

/-- `getParentTypeName`: re-parse the document text (a parse failure yields
`null`) and find the enclosing top-level declaration of the offset. -/
def getParentTypeName (doc : GQLDocument) (offset : Nat) : Option String :=
  match doc.parseResult with
  | none => none
  | some defs => findParentIn defs offset

/-- `findFieldDefinition`: determine the parent type of the cursor position
first, then run the same-file-first lookup for `<parent>.<field>`. -/
def findFieldDefinition (c : Cache) (fieldName : String) (doc : GQLDocument)
    (offset : Nat) : Option (List Location) :=
  match getParentTypeName doc offset with
  | none => none
  | some parentTypeName =>
    sameFileFirstLookup (fun e => e.fieldDefinitions) c
      (parentTypeName ++ "." ++ fieldName) doc.uri

/-- `GraphQLDefinitionProvider.provideDefinition`: extract the word under the
cursor (`null` when there is none), then try type, fragment and field lookup
in that fixed order, first non-null answer wins. -/
def dpProvideDefinition (c : Cache) (doc : GQLDocument) (pos : Nat) :
    Option (List Location) :=
  match doc.wordRangeAt pos with
  | none => none
  | some wordRange =>
    let word := String.mk (sliceSpan doc.text wordRange)
    match findTypeDefinition c word doc.uri with
    | some typeLocations => some typeLocations
    | none =>
      match findFragmentDefinition c word doc.uri with
      | some fragmentLocations => some fragmentLocations
      | none => findFieldDefinition c word doc pos

/-! ### GraphQL reference scanner and fallback provider -/

/-- The per-document body of `GraphQLReferenceProvider.provideReferences`: run
the global regex `\b name \b` (built without escaping) over the document's
full text and emit one `Location` per match, spanning
`[match.index, match.index + name.length)`. -/
def scanDocLocs (d : GQLDocument) (name : List Char) : List Location :=
  (execMatches d.text.length (matchAt d.text name) name.length).map
    (fun j => ⟨d.uri, ⟨j, j + name.length⟩⟩)

/-- The per-file loop of the multi-file reference scan: before opening the
`i`-th file the progress token is consulted once (`cancel i` is the value it
reads); a requested cancellation breaks out of the loop, returning whatever
was accumulated so far. -/
def scanLoop (name : List Char) (cancel : Nat → Bool) :
    List GQLDocument → Nat → List Location
  | [], _ => []
  | d :: rest, i =>
    if cancel i then [] else scanDocLocs d name ++ scanLoop name cancel rest (i + 1)

/-- Number of times the per-file loop consults the cancellation token. -/
def scanLoopChecks (cancel : Nat → Bool) : List GQLDocument → Nat → Nat
  | [], _ => 0
  | _ :: rest, i => 1 + (if cancel i then 0 else scanLoopChecks cancel rest (i + 1))

/-- `GraphQLReferenceProvider.provideReferences`: extract the word under the
cursor (pattern `\w+`; empty result when there is none), then scan every
workspace document matching the `graphql/gql/graphqls` glob (`docs` is the
enumeration `findFiles` returns).  `includeDeclaration` is read from the
context but never used. -/
def gqlProvideReferences (docs : List GQLDocument) (doc : GQLDocument)
    (pos : Nat) (includeDeclaration : Bool) (cancel : Nat → Bool) : List Location :=
  match doc.wordRangeAt pos with
  | none => []
  | some wordRange =>
    let name := sliceSpan doc.text wordRange
    let _ := includeDeclaration
    scanLoop name cancel docs 0

/-- Result of a definition query: plain locations from the declaration
resolver, or navigable links built by the fallback path. -/
structure LocationLink where
  originSelectionRange : Span
  targetUri : String
  targetRange : Span
  targetSelectionRange : Span
deriving DecidableEq, Repr

/-- `vscode.Definition | vscode.LocationLink[]` as the fallback provider
produces it. -/
inductive DefResult where
  | locations (ls : List Location)
  | links (ls : List LocationLink)
deriving DecidableEq, Repr

/-- `GraphQLFallbackProvider.provideDefinition`: return the declaration
resolver's answer when it is a non-empty array; otherwise extract the word
span under the cursor (`null` when there is none), run the reference scanner
with `includeDeclaration = true`, and repackage a non-empty reference list
into `LocationLink`s whose origin is the word span and whose target ranges
are the reference's range; an empty reference list yields `null`. -/
def gqlFallbackProvideDefinition (c : Cache) (docs : List GQLDocument)
    (doc : GQLDocument) (pos : Nat) (cancel : Nat → Bool) : Option DefResult :=
  let fallbackPart : Option DefResult :=
    match doc.wordRangeAt pos with
    | none => none
    | some wordRange =>
      let refs := gqlProvideReferences docs doc pos true cancel
      if refs.length > 0 then
        some (.links (refs.map (fun loc =>
          ⟨wordRange, loc.uri, loc.span, loc.span⟩)))
      else none
  match dpProvideDefinition c doc pos with
  | some definitions =>
    if definitions.length > 0 then some (.locations definitions) else fallbackPart
  | none => fallbackPart

/-! ### SQL engine

The SQL providers work on line/column positions and raw text; both caches map
flat string keys (`uri-word[-includeDeclaration]`) to location lists. -/

/-- A SQL text document: identifier and full text. -/
structure SQLDocument where
  uri : String
  text : List Char
deriving DecidableEq, Repr

/-- A `vscode.Position`: zero-based line and column. -/
structure Pos2 where
  line : Nat
  character : Nat
deriving DecidableEq, Repr

/-- The lines of a text, split on newline characters. -/
def textLines (text : List Char) : List (List Char) :=
  text.splitOn '\n'

/-- `document.offsetAt(position)`. -/
def posToOffset (text : List Char) (p : Pos2) : Nat :=
  ((((textLines text).take p.line).map (fun l => l.length + 1)).sum) + p.character

/-- `document.lineAt(line).text`. -/
def lineTextAt (text : List Char) (ln : Nat) : List Char :=
  (textLines text).getD ln []

/-- Start of the maximal word-character run ending at offset `k`. -/
def wordRunStart (text : List Char) : Nat → Nat
  | 0 => 0
  | k + 1 => if wordChar (text.getD k ' ') then wordRunStart text k else k + 1

/-- End of the maximal word-character run starting at offset `i` (fuel-bounded
scan to the right; `text.length + 1` fuel always suffices). -/
def wordRunEnd (text : List Char) : Nat → Nat → Nat
  | 0, i => i
  | fuel + 1, i =>
    if decide (i < text.length) && wordChar (text.getD i ' ') then
      wordRunEnd text fuel (i + 1)
    else i

/-- The host's default `getWordRangeAtPosition`: the span of the maximal run
of word characters containing the cursor offset, when the cursor sits on a
word character. -/
def getWordRangeAt (text : List Char) (off : Nat) : Option Span :=
  if decide (off < text.length) && wordChar (text.getD off ' ') then
    some ⟨wordRunStart text off, wordRunEnd text (text.length + 1) off⟩
  else none

/-- Case-insensitive literal match: consume `lit` at offset `i`, returning the
offset just past it. -/
def litCIAt (text lit : List Char) (i : Nat) : Option Nat :=
  if lowerEq (sliceL text i lit.length) lit then some (i + lit.length) else none

/-- Greedy `\s+`: the offset just past the whitespace run starting at `i`
(fuel-bounded). -/
def wsRunEnd (text : List Char) : Nat → Nat → Nat
  | 0, i => i
  | fuel + 1, i =>
    if decide (i < text.length) && jsSpace (text.getD i ' ') then
      wsRunEnd text fuel (i + 1)
    else i

/-- `\s+` at offset `i`: requires at least one whitespace character. -/
def ws1 (text : List Char) (i : Nat) : Option Nat :=
  let e := wsRunEnd text (text.length + 1) i
  if i < e then some e else none

/-- Match of `/create\s+(table|type)\s+/i` at offset `i`, returning the offset
past the whole match.  The greedy `\s+` runs never need backtracking here
because every following token starts with a non-space character. -/
def createKwMatchAt (line : List Char) (i : Nat) : Option Nat := do
  let i1 ← litCIAt line "create".toList i
  let i2 ← ws1 line i1
  let i3 ← litCIAt line "table".toList i2 <|> litCIAt line "type".toList i2
  ws1 line i3

/-- Leftmost match of `/create\s+(table|type)\s+/i` over a line:
`(match.index, end offset)`. -/
def firstCreateMatch (line : List Char) : Option (Nat × Nat) :=
  (((List.range (line.length + 1)).filterMap (fun i =>
    (createKwMatchAt line i).map (fun e => (i, e))))).head?

/-- JavaScript `String.indexOf`: offset of the first occurrence of `needle`
as a plain substring of `hay` (`none` for JavaScript's `-1`). -/
def indexOfSub (hay needle : List Char) : Option Nat :=
  ((List.range (hay.length + 1)).filter (fun i =>
    decide (sliceL hay i needle.length = needle))).head?

/-- `SQLDefinitionProvider.isOnDefinition`: on the cursor's line (lowercased),
find the first `create table|type` keyword match; locate the first substring
occurrence of the word after it; report true exactly when the cursor column
falls inside `[wordStartPos, wordEndPos]`. -/
def sqlIsOnDefinition (doc : SQLDocument) (pos : Pos2) (word : List Char) : Bool :=
  let lineText := toLowerL (lineTextAt doc.text pos.line)
  match firstCreateMatch lineText with
  | none => false
  | some me =>
    let afterCreate := lineText.drop me.2
    match indexOfSub (toLowerL afterCreate) (toLowerL word) with
    | none => false
    | some wordInLine =>
      let wordStartPos := me.2 + wordInLine
      let wordEndPos := wordStartPos + word.length
      decide (wordStartPos ≤ pos.character) && decide (pos.character ≤ wordEndPos)

/-- `;` tail of the CREATE pattern, `\s*[^;]+;`: succeeds exactly when the
first semicolon at or after `p` lies strictly beyond `p` (so that `[^;]+`
consumes at least one character); returns the offset past the semicolon. -/
def semiTail (text : List Char) (p : Nat) : Option Nat :=
  match (List.range text.length).find? (fun k =>
      decide (p ≤ k) && (text.getD k ' ' == ';')) with
  | some k => if p < k then some (k + 1) else none
  | none => none

/-- Name-and-tail part of the CREATE pattern starting at `p`:
`(word)(?:\s+as\s+enum)?\s*[^;]+;` with the JavaScript preference for taking
the optional group first; returns `(end offset, name start offset)`. -/
def matchNameTail (text word : List Char) (p : Nat) : Option (Nat × Nat) := do
  let q ← litCIAt text word p
  let r ← (do
      let q1 ← ws1 text q
      let q2 ← litCIAt text "as".toList q1
      let q3 ← ws1 text q2
      let q4 ← litCIAt text "enum".toList q3
      semiTail text q4) <|> semiTail text q
  pure (r, p)

/-- Match of the full pattern
`/create\s+(table|type)\s+(?:if\s+not\s+exists\s+)?(word)(?:\s+as\s+enum)?\s*[^;]+;/i`
at offset `i` of the document text, with JavaScript's backtracking order for
the optional `if not exists` group; returns `(end offset, name start
offset)`. -/
def matchCreateDefAt (text word : List Char) (i : Nat) : Option (Nat × Nat) := do
  let i1 ← litCIAt text "create".toList i
  let i2 ← ws1 text i1
  let i3 ← litCIAt text "table".toList i2 <|> litCIAt text "type".toList i2
  let i4 ← ws1 text i3
  (do
    let j1 ← litCIAt text "if".toList i4
    let j2 ← ws1 text j1
    let j3 ← litCIAt text "not".toList j2
    let j4 ← ws1 text j3
    let j5 ← litCIAt text "exists".toList j4
    let j6 ← ws1 text j5
    matchNameTail text word j6) <|> matchNameTail text word i4

/-- Leftmost match of the CREATE pattern at or after offset `i`:
`(match.index, end offset, name start offset)`. -/
def firstDefMatchFrom (text word : List Char) (i : Nat) : Option (Nat × Nat × Nat) :=
  ((List.range (text.length + 1)).filterMap (fun j =>
    if i ≤ j then (matchCreateDefAt text word j).map (fun r => (j, r.1, r.2)) else none)).head?

/-- The global exec loop of `SQLDefinitionProvider.findDefinitions`: for each
match, when the captured name equals the word case-insensitively, emit a
location at `match.index + match[0].indexOf(matchedName)` (the first plain
substring occurrence of the captured text inside the whole match), then
continue past the match. -/
def sqlDefScanGo (uri : String) (text word : List Char) : Nat → Nat → List Location
  | 0, _ => []
  | fuel + 1, i =>
    match firstDefMatchFrom text word i with
    | none => []
    | some jens =>
      let j := jens.1
      let e := jens.2.1
      let ns := jens.2.2
      let matchedName := sliceL text ns word.length
      let m0 := sliceL text j (e - j)
      let entry : List Location :=
        if lowerEq matchedName word then
          match indexOfSub m0 matchedName with
          | some k => [⟨uri, ⟨j + k, j + k + matchedName.length⟩⟩]
          | none => []
        else []
      entry ++ sqlDefScanGo uri text word fuel e

/-- All CREATE TABLE / CREATE TYPE definition locations for `word` in a
document's text. -/
def sqlFindDefinitionsScan (uri : String) (text word : List Char) : List Location :=
  sqlDefScanGo uri text word (text.length + 1) 0

/-- The shared flat-keyed cache shape of both SQL providers. -/
abbrev SQLCache := List (String × List Location)

/-- Lookup in a flat-keyed cache. -/
def assocGet (c : SQLCache) (k : String) : Option (List Location) :=
  (c.find? (fun kv => kv.1 == k)).map (fun kv => kv.2)

/-- Insertion into a flat-keyed cache (JavaScript `Map.set`). -/
def assocSet (c : SQLCache) (k : String) (v : List Location) : SQLCache :=
  if c.any (fun kv => kv.1 == k) then
    c.map (fun kv => if kv.1 == k then (k, v) else kv)
  else
    c ++ [(k, v)]

/-- `SQLDefinitionProvider.findDefinitions`: memoized per `uri-word` key. -/
def sqlFindDefinitions (cache : SQLCache) (doc : SQLDocument) (word : List Char) :
    List Location × SQLCache :=
  let cacheKey := doc.uri ++ "-" ++ String.mk word
  match assocGet cache cacheKey with
  | some v => (v, cache)
  | none =>
    let definitions := sqlFindDefinitionsScan doc.uri doc.text word
    (definitions, assocSet cache cacheKey definitions)

/-- `SQLDefinitionProvider.provideDefinition`: word under cursor (else null),
the `isOnDefinition` guard (null when the cursor is judged to sit on the
definition itself), then the memoized CREATE scan; an empty scan yields
null. -/
def sqlProvideDefinition (cache : SQLCache) (doc : SQLDocument) (pos : Pos2) :
    Option (List Location) × SQLCache :=
  let off := posToOffset doc.text pos
  match getWordRangeAt doc.text off with
  | none => (none, cache)
  | some wordRange =>
    let word := sliceSpan doc.text wordRange
    if sqlIsOnDefinition doc pos word then (none, cache)
    else
      let dc := sqlFindDefinitions cache doc word
      if dc.1.length > 0 then (some dc.1, dc.2) else (none, dc.2)

/-- JavaScript `text.lastIndexOf('\n', j)`. -/
def lastNewlineLE (text : List Char) (j : Nat) : Option Nat :=
  ((List.range (j + 1)).reverse.find? (fun k => text.getD k ' ' == '\n'))

/-- JavaScript `text.indexOf('\n', j)`. -/
def firstNewlineGE (text : List Char) (j : Nat) : Option Nat :=
  (List.range text.length).find? (fun k => decide (j ≤ k) && (text.getD k ' ' == '\n'))

/-- JavaScript `String.trim` (ASCII whitespace). -/
def trimJS (l : List Char) : List Char :=
  (((l.dropWhile jsSpace).reverse.dropWhile jsSpace)).reverse

/-- The scan body of `SQLReferenceProvider.findReferences`: case-insensitive
whole-word matches of the escaped word (the compiled regex
`\b escapeRegex(word) \b` with flags `gi` matches the literal word), keeping
a match only when its text equals the word case-insensitively and its
containing line, trimmed, does not start with the `--` comment marker. -/
def sqlScanReferences (uri : String) (text word : List Char) : List Location :=
  (execMatches text.length (matchAtCI text word) word.length).filterMap (fun j =>
    let matchedText := sliceL text j word.length
    if lowerEq matchedText word then
      let lineStart := match lastNewlineLE text j with | some k => k + 1 | none => 0
      let lineEnd := match firstNewlineGE text j with | some k => k | none => text.length
      let line := sliceL text lineStart (lineEnd - lineStart)
      if (trimJS line).take 2 = ['-', '-'] then none
      else some ⟨uri, ⟨j, j + matchedText.length⟩⟩
    else none)

/-- The memoization key `uri-word-includeDeclaration`. -/
def sqlMkRefKey (uri : String) (word : List Char) (includeDeclaration : Bool) : String :=
  uri ++ "-" ++ String.mk word ++ "-" ++ (if includeDeclaration then "true" else "false")

/-- `SQLReferenceProvider.findReferences`: memoized per
`(document, word, includeDeclaration)` key. -/
def sqlFindReferences (cache : SQLCache) (doc : SQLDocument) (word : List Char)
    (includeDeclaration : Bool) : List Location × SQLCache :=
  let cacheKey := sqlMkRefKey doc.uri word includeDeclaration
  match assocGet cache cacheKey with
  | some v => (v, cache)
  | none =>
    let references := sqlScanReferences doc.uri doc.text word
    (references, assocSet cache cacheKey references)

/-- `SQLReferenceProvider.provideReferences`: word under cursor (else empty),
then the memoized scan. -/
def sqlProvideReferences (cache : SQLCache) (doc : SQLDocument) (pos : Pos2)
    (includeDeclaration : Bool) : List Location × SQLCache :=
  let off := posToOffset doc.text pos
  match getWordRangeAt doc.text off with
  | none => ([], cache)
  | some wordRange =>
    sqlFindReferences cache doc (sliceSpan doc.text wordRange) includeDeclaration

/-- JavaScript `String.startsWith`. -/
def strStartsWith (s p : String) : Bool :=
  p.data.isPrefixOf s.data

/-- `clearCache` (identical in both SQL providers): delete every cache entry
whose key starts with the document's URI followed by the `-` separator. -/
def sqlClearCache (uri : String) (cache : SQLCache) : SQLCache :=
  cache.filter (fun kv => !(strStartsWith kv.1 (uri ++ "-")))

/-! ### Statement-level vocabulary used by the verification theorems -/

/-- The cross-file part of the same-file-first lookup: every location stored
under `key` in a slot other than the current document's. -/
def otherFilesLocs (tableOf : CacheEntry → List (String × Location))
    (c : Cache) (key : String) (currentUri : String) : List Location :=
  c.filterMap (fun kv =>
    if kv.1 ≠ currentUri then mapGet (tableOf kv.2) key else none)

/-- "The Declaration Resolver yields no location": a `null` or an empty
array. -/
def resolverEmpty (o : Option (List Location)) : Prop :=
  o = none ∨ o = some []

/-- Well-formedness of the collaborator parser's spans on a document: the
span recorded for every type-definition name node covers exactly the declared
name's token text.  (This is a property of the graphql parser, which the
repository consumes but does not implement.) -/
def typeNameSpansExact (doc : GQLDocument) : Bool :=
  match doc.parseResult with
  | none => true
  | some defs =>
    defs.all (fun d =>
      match d with
      | .typeDef t =>
        match t.name.loc with
        | some l => decide (sliceSpan doc.text l = t.name.value.data)
        | none => true
      | _ => true)

/-- Coherence of a SQL reference cache with a document: every memoized value
stored under one of the document's keys is the scan result for that word.
Every cache state the provider reaches satisfies this, since entries are only
ever written by `findReferences` itself. -/
def sqlRefCacheCoherent (cache : SQLCache) (doc : SQLDocument) : Prop :=
  ∀ w b v, assocGet cache (sqlMkRefKey doc.uri w b) = some v →
    v = sqlScanReferences doc.uri doc.text w

/-- Concatenated per-document scan results (the no-cancellation reference
scan). -/
def scanAll (docs : List GQLDocument) (name : List Char) : List Location :=
  (docs.map (fun d => scanDocLocs d name)).flatten

/-! ### Concrete fixtures used by witness theorems -/

/-- Text of fixture document `a.graphql`: `type User \x7b id: ID \x7d`. -/
def gqlTextA : List Char := "type User \x7b id: ID \x7d".toList

/-- Fixture `a.graphql`, with the parse result the graphql parser produces
for it (name spans point at the name tokens). -/
def gqlDocA : GQLDocument :=
  { uri := "a.graphql", text := gqlTextA, isGraphQL := true,
    parseResult := some [.typeDef ⟨⟨"User", some ⟨5, 9⟩⟩, some ⟨0, 20⟩,
      some [⟨"id", some ⟨12, 14⟩⟩]⟩],
    wordRangeAt := getWordRangeAt gqlTextA }

/-- Text of fixture document `b.graphql`: `type Query \x7b user: User \x7d`. -/
def gqlTextB : List Char := "type Query \x7b user: User \x7d".toList

/-- Fixture `b.graphql`. -/
def gqlDocB : GQLDocument :=
  { uri := "b.graphql", text := gqlTextB, isGraphQL := true,
    parseResult := some [.typeDef ⟨⟨"Query", some ⟨5, 10⟩⟩, some ⟨0, 25⟩,
      some [⟨"user", some ⟨13, 17⟩⟩]⟩],
    wordRangeAt := getWordRangeAt gqlTextB }

/-- Text of fixture document `c.graphql`:
`fragment User on Query \x7b user \x7d` — a fragment whose name collides with
the type name `User`. -/
def gqlTextC : List Char := "fragment User on Query \x7b user \x7d".toList

/-- Fixture `c.graphql`. -/
def gqlDocC : GQLDocument :=
  { uri := "c.graphql", text := gqlTextC, isGraphQL := true,
    parseResult := some [.fragmentDef ⟨⟨"User", some ⟨9, 13⟩⟩, "Query", some ⟨0, 31⟩⟩],
    wordRangeAt := getWordRangeAt gqlTextC }

/-- Text of fixture document `e.graphql`: a second file declaring `User`. -/
def gqlTextE : List Char := "type User \x7b x: ID \x7d".toList

/-- Fixture `e.graphql`. -/
def gqlDocE : GQLDocument :=
  { uri := "e.graphql", text := gqlTextE, isGraphQL := true,
    parseResult := some [.typeDef ⟨⟨"User", some ⟨5, 9⟩⟩, some ⟨0, 19⟩,
      some [⟨"x", some ⟨12, 13⟩⟩]⟩],
    wordRangeAt := getWordRangeAt gqlTextE }

/-- Text of fixture document `d.graphql`:
`type T \x7b a: ID \x7d # junk` — a trailing comment outside every
definition's span. -/
def gqlTextD : List Char := "type T \x7b a: ID \x7d # junk".toList

/-- Fixture `d.graphql`. -/
def gqlDocD : GQLDocument :=
  { uri := "d.graphql", text := gqlTextD, isGraphQL := true,
    parseResult := some [.typeDef ⟨⟨"T", some ⟨5, 6⟩⟩, some ⟨0, 16⟩,
      some [⟨"a", some ⟨9, 10⟩⟩]⟩],
    wordRangeAt := getWordRangeAt gqlTextD }

/-- A document whose text fails to parse. -/
def gqlDocBad : GQLDocument :=
  { uri := "bad.graphql", text := "type (".toList, isGraphQL := true,
    parseResult := none,
    wordRangeAt := getWordRangeAt "type (".toList }

/-- Index built from fixtures `a`, `b`, `c`. -/
def cacheABC : Cache :=
  updateCacheForDocument (updateCacheForDocument (updateCacheForDocument [] gqlDocA) gqlDocB) gqlDocC

/-- Index built from fixtures `a`, `b`, `e` (two files declaring `User`). -/
def cacheABE : Cache :=
  updateCacheForDocument (updateCacheForDocument (updateCacheForDocument [] gqlDocA) gqlDocB) gqlDocE

/-- SQL fixture: a declaration whose name `exist` also occurs, as a plain
substring, inside the `exists` keyword earlier on the same line. -/
def sqlDocExist : SQLDocument :=
  ⟨"file:exist.sql", "create table if not exists exist (x int);".toList⟩

/-- SQL fixture used by the nominal scenarios. -/
def sqlDocUsers : SQLDocument :=
  ⟨"file:users.sql", "CREATE TABLE users (id int);\nSELECT * FROM users;\n-- users comment".toList⟩

/-- SQL fixture whose URI extends another fixture's URI past a `-`. -/
def sqlDocUX : SQLDocument :=
  ⟨"u-x", "create table w (a int);".toList⟩

/-- The source span the parent-type walk reads off a top-level definition. -/
def defNodeLoc (d : DefNode) : Option Span :=
  match d with
  | .typeDef t => t.loc
  | .fragmentDef f => f.loc
  | .otherDef l => l

/-! ## Verification

General lemmas about the association-list embedding of JavaScript `Map`s,
followed by one theorem per specified property. -/

theorem find?_overwrite {α : Type} (c : List (String × α)) (k : String) (v : α)
    (h : c.any (fun kv => kv.1 == k) = true) :
    (c.map (fun kv => if kv.1 == k then (k, v) else kv)).find?
      (fun kv => kv.1 == k) = some (k, v) := by
  induction c with
  | nil => simp at h
  | cons a t ih =>
    rw [List.map_cons]
    rcases Bool.eq_false_or_eq_true (a.1 == k) with ha | ha
    · rw [if_pos ha, List.find?_cons_of_pos _ (by simp)]
    · rw [if_neg (by simp [ha]), List.find?_cons_of_neg _ (by simp [ha])]
      exact ih (by simpa [ha] using h)

theorem find?_append_new {α : Type} (c : List (String × α)) (k : String) (v : α) :
    (c.any (fun kv => kv.1 == k) = false) →
    (c ++ [(k, v)]).find? (fun kv => kv.1 == k) = some (k, v) := by
  induction c with
  | nil => intro _; simp [List.find?]
  | cons a t ih =>
    intro h
    simp only [List.any_cons, Bool.or_eq_false_iff] at h
    rw [List.cons_append, List.find?_cons_of_neg _ (by simp [h.1])]
    exact ih h.2

theorem find?_set {α : Type} (c : List (String × α)) (k : String) (v : α) :
    ((if c.any (fun kv => kv.1 == k) then
        c.map (fun kv => if kv.1 == k then (k, v) else kv)
      else c ++ [(k, v)]).find? (fun kv => kv.1 == k)) = some (k, v) := by
  by_cases h : c.any (fun kv => kv.1 == k) = true
  · rw [if_pos h]; exact find?_overwrite c k v h
  · rw [if_neg h]; exact find?_append_new c k v (Bool.eq_false_iff.mpr h)

theorem find?_set_ne {α : Type} (c : List (String × α)) (k k' : String) (v : α)
    (hne : ¬(k' = k)) :
    ((if c.any (fun kv => kv.1 == k) then
        c.map (fun kv => if kv.1 == k then (k, v) else kv)
      else c ++ [(k, v)]).find? (fun kv => kv.1 == k')) =
      c.find? (fun kv => kv.1 == k') := by
  have hkk' : (k == k') = false := beq_eq_false_iff_ne.mpr (fun h => hne h.symm)
  by_cases h : c.any (fun kv => kv.1 == k) = true
  · rw [if_pos h]
    clear h
    induction c with
    | nil => rfl
    | cons a t ih =>
      rw [List.map_cons]
      rcases Bool.eq_false_or_eq_true (a.1 == k) with ha | ha
      · have ha2 : a.1 = k := by simpa using ha
        rw [if_pos ha, List.find?_cons_of_neg _ (by simp [hkk']),
          List.find?_cons_of_neg _ (by simp [ha2]; exact fun hkk => hne hkk.symm), ih]
      · rw [if_neg (by simp [ha])]
        rcases Bool.eq_false_or_eq_true (a.1 == k') with ha' | ha'
        · rw [List.find?_cons_of_pos _ (by simp [ha']), List.find?_cons_of_pos _ (by simp [ha'])]
        · rw [List.find?_cons_of_neg _ (by simp [ha']), List.find?_cons_of_neg _ (by simp [ha']),
            ih]
  · rw [if_neg h]
    clear h
    induction c with
    | nil => simp [List.find?, hkk']
    | cons a t ih =>
      rcases Bool.eq_false_or_eq_true (a.1 == k') with ha' | ha'
      · rw [List.cons_append, List.find?_cons_of_pos _ (by simp [ha']),
          List.find?_cons_of_pos _ (by simp [ha'])]
      · rw [List.cons_append, List.find?_cons_of_neg _ (by simp [ha']),
          List.find?_cons_of_neg _ (by simp [ha']), ih]

theorem find?_eq_of_nodup_mem {α : Type} (c : List (String × α))
    (hnd : (c.map Prod.fst).Nodup) (kv : String × α) (hkv : kv ∈ c) :
    c.find? (fun x => x.1 == kv.1) = some kv := by
  induction c with
  | nil => cases hkv
  | cons a t ih =>
    rw [List.mem_cons] at hkv
    rcases hkv with rfl | hkv'
    · rw [List.find?_cons_of_pos _ (by simp)]
    · have hne : ¬(a.1 = kv.1) := by
        intro he
        have : kv.1 ∈ t.map Prod.fst := List.mem_map_of_mem Prod.fst hkv'
        rw [List.map_cons, List.nodup_cons] at hnd
        exact hnd.1 (he ▸ this)
      rw [List.find?_cons_of_neg _ (by simp [hne])]
      exact ih (by rw [List.map_cons, List.nodup_cons] at hnd; exact hnd.2) hkv'

theorem mapGet_mapSet_self (m : List (String × Location)) (k : String) (v : Location) :
    mapGet (mapSet m k v) k = some v := by
  unfold mapGet mapSet
  rw [find?_set]
  rfl

theorem mapGet_mapSet_ne (m : List (String × Location)) (k k' : String) (v : Location)
    (hne : ¬(k' = k)) :
    mapGet (mapSet m k v) k' = mapGet m k' := by
  unfold mapGet mapSet
  rw [find?_set_ne _ _ _ _ hne]

theorem assocGet_assocSet_self (c : SQLCache) (k : String) (v : List Location) :
    assocGet (assocSet c k v) k = some v := by
  unfold assocGet assocSet
  rw [find?_set]
  rfl

/-- Normal form of the shared same-file-first lookup. -/
theorem sameFileFirstLookup_eq (tableOf : CacheEntry → List (String × Location))
    (c : Cache) (key uri : String) :
    sameFileFirstLookup tableOf c key uri =
      match (cacheGet c uri).bind (fun e => mapGet (tableOf e) key) with
      | some l => some [l]
      | none =>
        if (otherFilesLocs tableOf c key uri).length > 0 then
          some (otherFilesLocs tableOf c key uri)
        else none := by
  unfold sameFileFirstLookup otherFilesLocs
  cases cacheGet c uri with
  | none => simp
  | some e => cases mapGet (tableOf e) key <;> simp

theorem mem_otherFilesLocs (tableOf : CacheEntry → List (String × Location))
    (c : Cache) (key uri : String) (l : Location) :
    l ∈ otherFilesLocs tableOf c key uri ↔
      ∃ kv, kv ∈ c ∧ kv.1 ≠ uri ∧ mapGet (tableOf kv.2) key = some l := by
  unfold otherFilesLocs
  rw [List.mem_filterMap]
  constructor
  · rintro ⟨kv, hkv, hf⟩
    by_cases hne : kv.1 = uri
    · rw [if_neg (by simp [hne])] at hf
      cases hf
    · rw [if_pos hne] at hf
      exact ⟨kv, hkv, hne, hf⟩
  · rintro ⟨kv, hkv, hne, hl⟩
    refine ⟨kv, hkv, ?_⟩
    rw [if_pos hne]
    exact hl

theorem cacheGet_mem (c : Cache) (uri : String) (e : CacheEntry)
    (hc : cacheGet c uri = some e) :
    ∃ kv, kv ∈ c ∧ kv.1 = uri ∧ kv.2 = e := by
  unfold cacheGet at hc
  cases hf : List.find? (fun kv => kv.1 == uri) c with
  | none => rw [hf] at hc; cases hc
  | some kv0 =>
    rw [hf] at hc
    have hmem := List.mem_of_find?_eq_some hf
    have hkey : (kv0.1 == uri) = true := (List.find?_eq_some.mp hf).1
    refine ⟨kv0, hmem, by simpa using hkey, by simpa using hc⟩

theorem sameFileFirstLookup_eq_none (tableOf : CacheEntry → List (String × Location))
    (c : Cache) (key uri : String)
    (h : ∀ kv, kv ∈ c → mapGet (tableOf kv.2) key = none) :
    sameFileFirstLookup tableOf c key uri = none := by
  have hglob : otherFilesLocs tableOf c key uri = [] := by
    rw [List.eq_nil_iff_forall_not_mem]
    intro l hl
    obtain ⟨kv, hkv, _, hsome⟩ := (mem_otherFilesLocs tableOf c key uri l).mp hl
    rw [h kv hkv] at hsome
    cases hsome
  rw [sameFileFirstLookup_eq]
  cases hc : cacheGet c uri with
  | none => simp [hglob]
  | some e =>
    obtain ⟨kv, hkv, _, hsnd⟩ := cacheGet_mem c uri e hc
    have := h kv hkv
    rw [hsnd] at this
    simp [this, hglob]

theorem sameFileFirstLookup_isSome_of_mem (tableOf : CacheEntry → List (String × Location))
    (c : Cache) (key uri : String) (hnd : (c.map Prod.fst).Nodup)
    (kv : String × CacheEntry) (hkv : kv ∈ c)
    (hsome : mapGet (tableOf kv.2) key ≠ none) :
    ∃ ls, sameFileFirstLookup tableOf c key uri = some ls := by
  obtain ⟨l, hl⟩ : ∃ l, mapGet (tableOf kv.2) key = some l := by
    cases hx : mapGet (tableOf kv.2) key with
    | none => exact absurd hx hsome
    | some l => exact ⟨l, rfl⟩
  rw [sameFileFirstLookup_eq]
  by_cases hcur : kv.1 = uri
  · have hc : cacheGet c uri = some kv.2 := by
      unfold cacheGet
      rw [← hcur, find?_eq_of_nodup_mem c hnd kv hkv]
      rfl
    rw [hc]
    simp [hl]
  · have hmem : l ∈ otherFilesLocs tableOf c key uri :=
      (mem_otherFilesLocs tableOf c key uri l).mpr ⟨kv, hkv, hcur, hl⟩
    have hpos : (otherFilesLocs tableOf c key uri).length > 0 :=
      List.length_pos.mpr (List.ne_nil_of_mem hmem)
    cases hc : (cacheGet c uri).bind (fun e => mapGet (tableOf e) key) with
    | some l' => exact ⟨[l'], rfl⟩
    | none => exact ⟨otherFilesLocs tableOf c key uri, by simp [hpos]⟩

/-- C2: Parse-failure atomicity — updating the index with a document whose
text fails to parse leaves the whole index, and in particular the document's
slot with its three lookup tables, exactly as it was. -/
theorem updateCache_parse_failure_atomic (c : Cache) (doc : GQLDocument)
    (h : doc.parseResult = none) :
    updateCacheForDocument c doc = c ∧
    cacheGet (updateCacheForDocument c doc) doc.uri = cacheGet c doc.uri := by
  have h1 : updateCacheForDocument c doc = c := by
    unfold updateCacheForDocument
    cases doc.isGraphQL <;> simp [h]
  exact ⟨h1, by rw [h1]⟩

/-- Witness for C2: a concrete unparsable document leaves the concrete
three-file index untouched. -/
theorem updateCache_parse_failure_atomic_witness :
    gqlDocBad.parseResult = none ∧
    updateCacheForDocument cacheABC gqlDocBad = cacheABC :=
  ⟨rfl, (updateCache_parse_failure_atomic cacheABC gqlDocBad rfl).1⟩

/-- C3: Fixed resolution priority — with a word under the cursor, type lookup
is consulted first, then fragment lookup, then field lookup, the first
non-empty answer deciding the result; a word that is a declared type name in
any slot (in particular one that is also a declared fragment name) resolves
through the type lookup. -/
theorem resolution_priority (c : Cache) (doc : GQLDocument) (pos : Nat)
    (r : Span) (word : String)
    (hw : doc.wordRangeAt pos = some r)
    (hword : word = String.mk (sliceSpan doc.text r)) :
    (∀ ls, findTypeDefinition c word doc.uri = some ls →
        dpProvideDefinition c doc pos = some ls) ∧
    (findTypeDefinition c word doc.uri = none →
      ∀ ls, findFragmentDefinition c word doc.uri = some ls →
        dpProvideDefinition c doc pos = some ls) ∧
    (findTypeDefinition c word doc.uri = none →
      findFragmentDefinition c word doc.uri = none →
        dpProvideDefinition c doc pos = findFieldDefinition c word doc pos) ∧
    ((c.map Prod.fst).Nodup →
      ∀ kv, kv ∈ c → mapGet kv.2.typeDefinitions word ≠ none →
        ∃ ls, findTypeDefinition c word doc.uri = some ls ∧
          dpProvideDefinition c doc pos = some ls) := by
  subst hword
  have h1 : ∀ ls, findTypeDefinition c (String.mk (sliceSpan doc.text r)) doc.uri = some ls →
      dpProvideDefinition c doc pos = some ls := by
    intro ls hty
    unfold dpProvideDefinition
    rw [hw]
    simp [hty]
  refine ⟨h1, ?_, ?_, ?_⟩
  · intro hty ls hfr
    unfold dpProvideDefinition
    rw [hw]
    simp [hty, hfr]
  · intro hty hfr
    unfold dpProvideDefinition
    rw [hw]
    simp [hty, hfr]
  · intro hnd kv hkv hne
    obtain ⟨ls, hls⟩ := sameFileFirstLookup_isSome_of_mem (fun e => e.typeDefinitions) c
      (String.mk (sliceSpan doc.text r)) doc.uri hnd kv hkv hne
    have hty : findTypeDefinition c (String.mk (sliceSpan doc.text r)) doc.uri = some ls := hls
    exact ⟨ls, hty, h1 ls hty⟩

/-- Witness for C3: in the concrete three-file index, `User` names both a
type (in `a.graphql`) and a fragment (in `c.graphql`); resolving `User` from
`b.graphql` answers with the type's location while the fragment lookup would
have answered differently. -/
theorem resolution_priority_witness :
    dpProvideDefinition cacheABC gqlDocB 19 = some [⟨"a.graphql", ⟨5, 9⟩⟩] ∧
    findFragmentDefinition cacheABC "User" "b.graphql" = some [⟨"c.graphql", ⟨9, 13⟩⟩] := by
  refine ⟨?_, by decide⟩
  exact (resolution_priority cacheABC gqlDocB 19 ⟨19, 23⟩ "User" (by decide) (by decide)).1
    [⟨"a.graphql", ⟨5, 9⟩⟩] (by decide)

theorem addDef_typeDefinitions (uri : String) (e : CacheEntry) (d : DefNode)
    (T : String) (loc : Location)
    (h : mapGet (addDef uri e d).typeDefinitions T = some loc) :
    (∃ t : TypeDefNode, d = DefNode.typeDef t ∧ t.name.value = T ∧
      t.name.loc = some loc.span ∧ loc.uri = uri) ∨
    mapGet e.typeDefinitions T = some loc := by
  cases d with
  | typeDef t =>
    simp only [addDef] at h
    cases hl : t.name.loc with
    | none =>
      right
      rw [hl] at h
      cases hf : t.fields <;> rw [hf] at h <;> simpa using h
    | some l =>
      rw [hl] at h
      have h' : mapGet (mapSet e.typeDefinitions t.name.value ⟨uri, l⟩) T = some loc := by
        cases hf : t.fields <;> rw [hf] at h <;> simpa using h
      by_cases hT : T = t.name.value
      · subst hT
        rw [mapGet_mapSet_self] at h'
        left
        refine ⟨t, rfl, rfl, ?_, ?_⟩
        · rw [hl]
          cases h'
          rfl
        · cases h'
          rfl
      · rw [mapGet_mapSet_ne _ _ _ _ hT] at h'
        right
        exact h'
  | fragmentDef f =>
    right
    simp only [addDef] at h
    cases hl : f.name.loc <;> rw [hl] at h <;> simpa using h
  | otherDef l =>
    right
    simpa [addDef] using h

theorem foldl_addDef_typeDefinitions (uri : String) (defs : List DefNode)
    (e0 : CacheEntry) (T : String) (loc : Location)
    (h : mapGet (defs.foldl (addDef uri) e0).typeDefinitions T = some loc) :
    (∃ t : TypeDefNode, DefNode.typeDef t ∈ defs ∧ t.name.value = T ∧
      t.name.loc = some loc.span ∧ loc.uri = uri) ∨
    mapGet e0.typeDefinitions T = some loc := by
  induction defs generalizing e0 with
  | nil => right; simpa using h
  | cons d rest ih =>
    rw [List.foldl_cons] at h
    rcases ih (addDef uri e0 d) h with ⟨t, hmem, hrest⟩ | hstep
    · exact Or.inl ⟨t, List.mem_cons_of_mem d hmem, hrest⟩
    · rcases addDef_typeDefinitions uri e0 d T loc hstep with ⟨t, rfl, hrest⟩ | hbase
      · exact Or.inl ⟨t, List.mem_cons_self _ _, hrest⟩
      · exact Or.inr hbase

/-- C4: Type resolution span and same-file preference.  (1) Every location
the index stores for a type name `T` of a document with parser-exact name
spans points into that document and spans exactly `T`'s declared name token.
(2) When the resolving document's own slot holds `T`, exactly that single
location is returned.  (3) Otherwise the result is the list of matches from
all other slots — `null` when it is empty — and (4) that list holds exactly
the locations stored under `T` in slots of other files. -/
theorem type_resolution_span_and_preference :
    (∀ (doc : GQLDocument) (defs : List DefNode) (T : String) (loc : Location),
      doc.parseResult = some defs →
      typeNameSpansExact doc = true →
      mapGet (buildCacheEntry doc.uri defs).typeDefinitions T = some loc →
      loc.uri = doc.uri ∧ sliceSpan doc.text loc.span = T.data) ∧
    (∀ (c : Cache) (uri T : String) (e : CacheEntry) (l : Location),
      cacheGet c uri = some e →
      mapGet e.typeDefinitions T = some l →
      findTypeDefinition c T uri = some [l]) ∧
    (∀ (c : Cache) (uri T : String),
      (cacheGet c uri).bind (fun e => mapGet e.typeDefinitions T) = none →
      (findTypeDefinition c T uri = none ∧
          otherFilesLocs (fun e => e.typeDefinitions) c T uri = []) ∨
        findTypeDefinition c T uri =
          some (otherFilesLocs (fun e => e.typeDefinitions) c T uri)) ∧
    (∀ (c : Cache) (uri T : String) (l : Location),
      l ∈ otherFilesLocs (fun e => e.typeDefinitions) c T uri ↔
        ∃ kv, kv ∈ c ∧ kv.1 ≠ uri ∧ mapGet kv.2.typeDefinitions T = some l) := by
  refine ⟨?_, ?_, ?_, ?_⟩
  · intro doc defs T loc hp hspans h
    rcases foldl_addDef_typeDefinitions doc.uri defs CacheEntry.empty T loc h with
      ⟨t, hmem, hT, hloc, huri⟩ | hempty
    · refine ⟨huri, ?_⟩
      simp only [typeNameSpansExact, hp] at hspans
      have hpred := List.all_eq_true.mp hspans _ hmem
      simp only [hloc, decide_eq_true_eq] at hpred
      rw [hpred, hT]
    · simp [mapGet, CacheEntry.empty, List.find?] at hempty
  · intro c uri T e l he hl
    unfold findTypeDefinition
    rw [sameFileFirstLookup_eq, he]
    simp [hl]
  · intro c uri T hmiss
    unfold findTypeDefinition
    rw [sameFileFirstLookup_eq, hmiss]
    by_cases hpos : (otherFilesLocs (fun e => e.typeDefinitions) c T uri).length > 0
    · right
      simp [hpos]
    · left
      refine ⟨by simp [hpos], ?_⟩
      rw [← List.length_eq_zero]
      omega
  · intro c uri T l
    exact mem_otherFilesLocs (fun e => e.typeDefinitions) c T uri l

/-- Witness for C4: in a concrete index where both `a.graphql` and
`e.graphql` declare type `User`, the stored location spans exactly the name
token; resolving from `a.graphql` prefers the same-file copy, resolving from
`b.graphql` returns the union over the other files. -/
theorem type_resolution_span_and_preference_witness :
    ((Location.mk "a.graphql" ⟨5, 9⟩).uri = gqlDocA.uri ∧
      sliceSpan gqlDocA.text (Location.mk "a.graphql" ⟨5, 9⟩).span = "User".data) ∧
    findTypeDefinition cacheABE "User" "a.graphql" = some [⟨"a.graphql", ⟨5, 9⟩⟩] ∧
    ((findTypeDefinition cacheABE "User" "b.graphql" = none ∧
        otherFilesLocs (fun e => e.typeDefinitions) cacheABE "User" "b.graphql" = []) ∨
      findTypeDefinition cacheABE "User" "b.graphql" =
        some (otherFilesLocs (fun e => e.typeDefinitions) cacheABE "User" "b.graphql")) ∧
    otherFilesLocs (fun e => e.typeDefinitions) cacheABE "User" "b.graphql" =
      [⟨"a.graphql", ⟨5, 9⟩⟩, ⟨"e.graphql", ⟨5, 9⟩⟩] := by
  refine ⟨?_, ?_, ?_, by decide⟩
  · exact type_resolution_span_and_preference.1 gqlDocA _ "User" ⟨"a.graphql", ⟨5, 9⟩⟩
      rfl (by decide) (by decide)
  · exact type_resolution_span_and_preference.2.1 cacheABE "a.graphql" "User"
      ((cacheGet cacheABE "a.graphql").getD CacheEntry.empty) ⟨"a.graphql", ⟨5, 9⟩⟩
      (by decide) (by decide)
  · exact type_resolution_span_and_preference.2.2.1 cacheABE "b.graphql" "User" (by decide)

theorem findParentIn_eq_none_of_not_contains (defs : List DefNode) (pos : Nat)
    (h : defs.all (fun d => !locContains (defNodeLoc d) pos) = true) :
    findParentIn defs pos = none := by
  induction defs with
  | nil => rfl
  | cons d rest ih =>
    rw [List.all_cons, Bool.and_eq_true] at h
    have hd := h.1
    have hrest := ih h.2
    cases d with
    | typeDef t =>
      simp only [defNodeLoc, Bool.not_eq_true'] at hd
      simp only [findParentIn, hd]
      exact hrest
    | fragmentDef f =>
      simp only [defNodeLoc, Bool.not_eq_true'] at hd
      simp only [findParentIn, hd]
      exact hrest
    | otherDef l =>
      simp only [findParentIn]
      exact hrest

/-- C5: Field resolution via enclosing type.  (1) When no top-level
definition's span contains the cursor offset, field resolution yields `null`.
(2) With enclosing type `P` (read from the enclosing type definition or the
enclosing fragment's type condition), a same-file entry for `P.field` is
returned alone; (3) otherwise the matches for `P.field` from all other slots
are returned, `null` when there are none; (4) in particular, when no slot at
all stores `P.field` — e.g. the enclosing type is unrelated to every recorded
`Type.field` — the result is `null`. -/
theorem field_resolution_enclosing_type :
    (∀ (c : Cache) (doc : GQLDocument) (pos : Nat) (word : String) (defs : List DefNode),
      doc.parseResult = some defs →
      defs.all (fun d => !locContains (defNodeLoc d) pos) = true →
      findFieldDefinition c word doc pos = none) ∧
    (∀ (c : Cache) (doc : GQLDocument) (pos : Nat) (word P : String),
      getParentTypeName doc pos = some P →
      ∀ (e : CacheEntry) (l : Location),
        cacheGet c doc.uri = some e →
        mapGet e.fieldDefinitions (P ++ "." ++ word) = some l →
        findFieldDefinition c word doc pos = some [l]) ∧
    (∀ (c : Cache) (doc : GQLDocument) (pos : Nat) (word P : String),
      getParentTypeName doc pos = some P →
      (cacheGet c doc.uri).bind (fun e => mapGet e.fieldDefinitions (P ++ "." ++ word)) = none →
      (findFieldDefinition c word doc pos = none ∧
          otherFilesLocs (fun e => e.fieldDefinitions) c (P ++ "." ++ word) doc.uri = []) ∨
        findFieldDefinition c word doc pos =
          some (otherFilesLocs (fun e => e.fieldDefinitions) c (P ++ "." ++ word) doc.uri)) ∧
    (∀ (c : Cache) (doc : GQLDocument) (pos : Nat) (word P : String),
      getParentTypeName doc pos = some P →
      c.all (fun kv => (mapGet kv.2.fieldDefinitions (P ++ "." ++ word)).isNone) = true →
      findFieldDefinition c word doc pos = none) := by
  have hred : ∀ (c : Cache) (doc : GQLDocument) (pos : Nat) (word P : String),
      getParentTypeName doc pos = some P →
      findFieldDefinition c word doc pos =
        sameFileFirstLookup (fun e => e.fieldDefinitions) c (P ++ "." ++ word) doc.uri := by
    intro c doc pos word P hP
    unfold findFieldDefinition
    rw [hP]
  refine ⟨?_, ?_, ?_, ?_⟩
  · intro c doc pos word defs hp hnone
    have h1 : getParentTypeName doc pos = none := by
      unfold getParentTypeName
      rw [hp]
      exact findParentIn_eq_none_of_not_contains defs pos hnone
    unfold findFieldDefinition
    rw [h1]
  · intro c doc pos word P hP e l he hl
    rw [hred c doc pos word P hP, sameFileFirstLookup_eq, he]
    simp [hl]
  · intro c doc pos word P hP hmiss
    rw [hred c doc pos word P hP, sameFileFirstLookup_eq, hmiss]
    by_cases hpos : (otherFilesLocs (fun e => e.fieldDefinitions) c (P ++ "." ++ word) doc.uri).length > 0
    · right
      simp [hpos]
    · left
      refine ⟨by simp [hpos], ?_⟩
      rw [← List.length_eq_zero]
      omega
  · intro c doc pos word P hP hall
    rw [hred c doc pos word P hP]
    apply sameFileFirstLookup_eq_none
    intro kv hkv
    have := List.all_eq_true.mp hall kv hkv
    exact Option.isNone_iff_eq_none.mp this

/-- Witness for C5: on the concrete index, `user` resolves inside `Query`'s
declaration to the recorded `Query.user` entry; a cursor in `d.graphql`'s
trailing comment (outside every definition span) yields `null`; and `ID`
inside `User`'s declaration yields `null` because no slot stores `User.ID`
(no leakage from any other type's entries). -/
theorem field_resolution_enclosing_type_witness :
    findFieldDefinition cacheABC "user" gqlDocB 13 = some [⟨"b.graphql", ⟨13, 17⟩⟩] ∧
    findFieldDefinition cacheABC "junk" gqlDocD 19 = none ∧
    findFieldDefinition cacheABC "ID" gqlDocA 16 = none := by
  refine ⟨?_, ?_, ?_⟩
  · exact field_resolution_enclosing_type.2.1 cacheABC gqlDocB 13 "user" "Query" (by decide)
      ((cacheGet cacheABC "b.graphql").getD CacheEntry.empty) ⟨"b.graphql", ⟨13, 17⟩⟩
      (by decide) (by decide)
  · exact field_resolution_enclosing_type.1 cacheABC gqlDocD 19 "junk" _ rfl (by decide)
  · exact field_resolution_enclosing_type.2.2.2 cacheABC gqlDocA 16 "ID" "User" (by decide)
      (by decide)

/-- C1: Fallback law.  A non-empty resolver answer is returned unchanged; an
empty resolver answer with a word under the cursor degrades to the reference
scan (invoked with `includeDeclaration = true`) reshaped into links whose
origin is the word span and whose target is the reference's location; when
that scan is also empty the result is `null`. -/
theorem fallback_law (c : Cache) (docs : List GQLDocument) (doc : GQLDocument)
    (pos : Nat) (cancel : Nat → Bool) :
    (∀ ls, dpProvideDefinition c doc pos = some ls → ls ≠ [] →
      gqlFallbackProvideDefinition c docs doc pos cancel = some (.locations ls)) ∧
    (∀ r, resolverEmpty (dpProvideDefinition c doc pos) →
      doc.wordRangeAt pos = some r →
      gqlProvideReferences docs doc pos true cancel ≠ [] →
      gqlFallbackProvideDefinition c docs doc pos cancel =
        some (.links ((gqlProvideReferences docs doc pos true cancel).map
          (fun loc => ⟨r, loc.uri, loc.span, loc.span⟩)))) ∧
    (∀ r, resolverEmpty (dpProvideDefinition c doc pos) →
      doc.wordRangeAt pos = some r →
      gqlProvideReferences docs doc pos true cancel = [] →
      gqlFallbackProvideDefinition c docs doc pos cancel = none) := by
  refine ⟨?_, ?_, ?_⟩
  · intro ls hdp hne
    unfold gqlFallbackProvideDefinition
    rw [hdp]
    have hlen : 0 < ls.length := List.length_pos.mpr hne
    simp [hlen]
  · intro r hres hw hne
    have hlen : 0 < (gqlProvideReferences docs doc pos true cancel).length :=
      List.length_pos.mpr hne
    unfold gqlFallbackProvideDefinition
    rcases hres with h | h <;> rw [h] <;> simp [hw, hlen]
  · intro r hres hw hempty
    unfold gqlFallbackProvideDefinition
    rcases hres with h | h <;> rw [h] <;> simp [hw, hempty]

/-- Witness for C1: the three branches at concrete inputs — resolver hit
(`User` from `b.graphql`), fallback to references (`ID` from `a.graphql`,
which only occurs in `a.graphql`), and total miss (`ID` scanned only over
`b.graphql`). -/
theorem fallback_law_witness :
    gqlFallbackProvideDefinition cacheABC [gqlDocA, gqlDocB, gqlDocC] gqlDocB 19
        (fun _ => false) = some (.locations [⟨"a.graphql", ⟨5, 9⟩⟩]) ∧
    gqlFallbackProvideDefinition cacheABC [gqlDocA, gqlDocB, gqlDocC] gqlDocA 16
        (fun _ => false) =
      some (.links ((gqlProvideReferences [gqlDocA, gqlDocB, gqlDocC] gqlDocA 16 true
          (fun _ => false)).map (fun loc => ⟨⟨16, 18⟩, loc.uri, loc.span, loc.span⟩))) ∧
    gqlFallbackProvideDefinition cacheABC [gqlDocB] gqlDocA 16 (fun _ => false) = none := by
  refine ⟨?_, ?_, ?_⟩
  · exact (fallback_law cacheABC [gqlDocA, gqlDocB, gqlDocC] gqlDocB 19 (fun _ => false)).1
      [⟨"a.graphql", ⟨5, 9⟩⟩] (by decide) (by decide)
  · exact (fallback_law cacheABC [gqlDocA, gqlDocB, gqlDocC] gqlDocA 16 (fun _ => false)).2.1
      ⟨16, 18⟩ (Or.inl (by decide)) (by decide) (by decide)
  · exact (fallback_law cacheABC [gqlDocB] gqlDocA 16 (fun _ => false)).2.2
      ⟨16, 18⟩ (Or.inl (by decide)) (by decide) (by decide)

theorem mem_occAllBy (n : Nat) (p : Nat → Bool) (j : Nat) :
    j ∈ occAllBy n p ↔ j < n ∧ p j = true := by
  unfold occAllBy
  rw [List.mem_filter, List.mem_range]

theorem occAllBy_sorted (n : Nat) (p : Nat → Bool) :
    (occAllBy n p).Pairwise (· < ·) := by
  unfold occAllBy
  exact (List.pairwise_lt_range n).filter p

theorem filter_ge_cons_of_head (l : List Nat) (hs : l.Pairwise (· < ·))
    (i j len : Nat) (hlen : 0 < len)
    (hmem : j ∈ l) (hij : i ≤ j)
    (hlow : ∀ x ∈ l, x < j → ¬(i ≤ x))
    (hskip : ∀ x ∈ l, j < x → j + len ≤ x) :
    l.filter (fun x => decide (i ≤ x)) =
      j :: l.filter (fun x => decide (j + len ≤ x)) := by
  induction l with
  | nil => cases hmem
  | cons a t ih =>
    rw [List.pairwise_cons] at hs
    rw [List.mem_cons] at hmem
    rcases hmem with rfl | hmem'
    · rw [List.filter_cons_of_pos (by simpa using hij),
        List.filter_cons_of_neg (by simp; omega)]
      congr 1
      apply List.filter_congr
      intro x hx
      have hjx : j < x := hs.1 x hx
      have h1 : i ≤ x := le_trans hij (le_of_lt hjx)
      have h2 : j + len ≤ x := hskip x (List.mem_cons_of_mem _ hx) hjx
      simp [h1, h2]
    · have haj : a < j := hs.1 j hmem'
      have hai : ¬(i ≤ a) := hlow a (List.mem_cons_self _ _) haj
      rw [List.filter_cons_of_neg (by simpa using hai),
        List.filter_cons_of_neg (by simp; omega)]
      exact ih hs.2 hmem'
        (fun x hx hxj => hlow x (List.mem_cons_of_mem _ hx) hxj)
        (fun x hx hjx => hskip x (List.mem_cons_of_mem _ hx) hjx)

theorem head?_filter_ge (l : List Nat) (hs : l.Pairwise (· < ·)) (i j : Nat)
    (h : (l.filter (fun x => decide (i ≤ x))).head? = some j) :
    j ∈ l ∧ i ≤ j ∧ ∀ x ∈ l, x < j → ¬(i ≤ x) := by
  cases hflc : l.filter (fun x => decide (i ≤ x)) with
  | nil => rw [hflc] at h; cases h
  | cons b tl =>
    rw [hflc] at h
    have hbj : b = j := by simpa using h
    subst hbj
    have hbmem : b ∈ l.filter (fun x => decide (i ≤ x)) := by
      rw [hflc]; exact List.mem_cons_self _ _
    rw [List.mem_filter] at hbmem
    refine ⟨hbmem.1, by simpa using hbmem.2, ?_⟩
    intro x hx hxb hix
    have hxfl : x ∈ l.filter (fun y => decide (i ≤ y)) :=
      List.mem_filter.mpr ⟨hx, by simpa using hix⟩
    rw [hflc, List.mem_cons] at hxfl
    have hsfl : (l.filter (fun y => decide (i ≤ y))).Pairwise (· < ·) := hs.filter _
    rw [hflc, List.pairwise_cons] at hsfl
    rcases hxfl with rfl | hxtl
    · omega
    · have := hsfl.1 x hxtl
      omega

theorem execGo_eq_filter (n : Nat) (p : Nat → Bool) (len : Nat) (hlen : 0 < len)
    (hskip : ∀ j j', p j = true → p j' = true → j < j' → j + len ≤ j')
    (fuel i : Nat) (hfuel : n + 1 ≤ fuel + i) :
    execGo n p len fuel i = (occAllBy n p).filter (fun x => decide (i ≤ x)) := by
  induction fuel generalizing i with
  | zero =>
    simp only [execGo]
    symm
    rw [List.filter_eq_nil_iff]
    intro x hx
    have hxn := ((mem_occAllBy n p x).mp hx).1
    simp only [decide_eq_true_eq]
    omega
  | succ fuel ih =>
    cases hff : firstFromBy n p i with
    | none =>
      have hff' := hff
      unfold firstFromBy at hff'
      have hnil := List.head?_eq_none_iff.mp hff'
      simp only [execGo, hff]
      exact hnil.symm
    | some j =>
      have hff' := hff
      unfold firstFromBy at hff'
      obtain ⟨hmem, hij, hlow⟩ :=
        head?_filter_ge (occAllBy n p) (occAllBy_sorted n p) i j hff'
      have hpj : p j = true := ((mem_occAllBy n p j).mp hmem).2
      have hcons := filter_ge_cons_of_head (occAllBy n p) (occAllBy_sorted n p) i j len
        hlen hmem hij hlow
        (fun x hx hjx => hskip j x hpj ((mem_occAllBy n p x).mp hx).2 hjx)
      simp only [execGo, hff]
      rw [hcons]
      congr 1
      exact ih (j + len) (by omega)

theorem sliceL_getD (text name : List Char) (j : Nat)
    (h : sliceL text j name.length = name) (k : Nat) (hk : k < name.length) (d : Char) :
    text.getD (j + k) d = name.getD k d := by
  unfold sliceL at h
  have h1 : name.getD k d = ((text.drop j).take name.length).getD k d := by rw [h]
  rw [h1, List.getD_eq_getElem?_getD, List.getD_eq_getElem?_getD,
    List.getElem?_take, if_pos hk, List.getElem?_drop]

theorem getD_mem_of_lt (l : List Char) (k : Nat) (hk : k < l.length) (d : Char) :
    l.getD k d ∈ l := by
  rw [List.getD_eq_getElem?_getD, List.getElem?_eq_getElem hk]
  exact List.getElem_mem hk

theorem matchAt_word_no_overlap (text name : List Char) (hword : name.all wordChar = true)
    (j j' : Nat) (h1 : matchAt text name j = true) (h2 : matchAt text name j' = true)
    (hlt : j < j') : j + name.length ≤ j' := by
  by_contra hc
  push_neg at hc
  unfold matchAt at h2
  simp only [Bool.and_eq_true, Bool.or_eq_true, decide_eq_true_eq] at h2
  obtain ⟨⟨_, hleft2⟩, _⟩ := h2
  unfold matchAt at h1
  simp only [Bool.and_eq_true, Bool.or_eq_true, decide_eq_true_eq] at h1
  obtain ⟨⟨hslice1, _⟩, _⟩ := h1
  rcases hleft2 with h0 | hnw
  · omega
  · have hk : j' - 1 - j < name.length := by omega
    have heq : text.getD (j + (j' - 1 - j)) ' ' = name.getD (j' - 1 - j) ' ' :=
      sliceL_getD text name j hslice1 _ hk ' '
    have hj1 : j + (j' - 1 - j) = j' - 1 := by omega
    rw [hj1] at heq
    have hwc : wordChar (name.getD (j' - 1 - j) ' ') = true :=
      List.all_eq_true.mp hword _ (getD_mem_of_lt name _ hk ' ')
    rw [← heq] at hwc
    rw [List.getD_eq_getElem?_getD] at hwc
    simp [hwc] at hnw

theorem execMatches_eq_wholeWordOccurrences (text name : List Char)
    (hne : name ≠ []) (hword : name.all wordChar = true) :
    execMatches text.length (matchAt text name) name.length =
      wholeWordOccurrences text name := by
  unfold execMatches wholeWordOccurrences
  rw [execGo_eq_filter text.length (matchAt text name) name.length
    (List.length_pos.mpr hne)
    (fun j j' hj hj' hlt => matchAt_word_no_overlap text name hword j j' hj hj' hlt)
    (text.length + 1) 0 (by omega)]
  rw [List.filter_eq_self]
  intro a _
  simp

theorem regexMeta_eq_false_of_wordChar (c : Char) (h : wordChar c = true) :
    regexMeta c = false := by
  cases hrm : regexMeta c
  · rfl
  · exfalso
    simp only [regexMeta, Bool.or_eq_true, beq_iff_eq] at hrm
    rcases hrm with (((((((((((((rfl | rfl) | rfl) | rfl) | rfl) | rfl) | rfl) | rfl) | rfl) | rfl) | rfl) | rfl) | rfl) | rfl) <;>
      exact absurd h (by decide)

theorem escapeRegex_id (name : List Char) (hword : name.all wordChar = true) :
    escapeRegex name = name := by
  induction name with
  | nil => rfl
  | cons c t ih =>
    rw [List.all_cons, Bool.and_eq_true] at hword
    unfold escapeRegex
    rw [List.map_cons, List.flatten_cons, if_neg (by simp [regexMeta_eq_false_of_wordChar c hword.1])]
    have ht : escapeRegex t = t := ih hword.2
    unfold escapeRegex at ht
    rw [ht]
    rfl

theorem scanLoop_no_cancel (name : List Char) (docs : List GQLDocument) (i : Nat) :
    scanLoop name (fun _ => false) docs i = scanAll docs name := by
  induction docs generalizing i with
  | nil => rfl
  | cons d rest ih =>
    simp only [scanLoop]
    rw [if_neg (by simp), ih (i + 1)]
    rfl

/-- C6: the query/schema-engine reference scan enumerates the glob's
documents and collects, per document, exactly the whole-word case-sensitive
matches of the (escaped) token over the full text, one location per match. -/
theorem gql_reference_scan_pattern (docs : List GQLDocument) (doc : GQLDocument)
    (pos : Nat) (includeDeclaration : Bool) (r : Span)
    (hw : doc.wordRangeAt pos = some r)
    (hne : sliceSpan doc.text r ≠ [])
    (hword : (sliceSpan doc.text r).all wordChar = true) :
    gqlProvideReferences docs doc pos includeDeclaration (fun _ => false) =
      (docs.map (fun d =>
        (wholeWordOccurrences d.text (escapeRegex (sliceSpan doc.text r))).map
          (fun j => Location.mk d.uri ⟨j, j + (sliceSpan doc.text r).length⟩))).flatten := by
  have hesc : escapeRegex (sliceSpan doc.text r) = sliceSpan doc.text r :=
    escapeRegex_id _ hword
  rw [hesc]
  have hdoc : ∀ d : GQLDocument,
      scanDocLocs d (sliceSpan doc.text r) =
        (wholeWordOccurrences d.text (sliceSpan doc.text r)).map
          (fun j => Location.mk d.uri ⟨j, j + (sliceSpan doc.text r).length⟩) := by
    intro d
    unfold scanDocLocs
    rw [execMatches_eq_wholeWordOccurrences d.text _ hne hword]
  unfold gqlProvideReferences
  rw [hw]
  simp only [scanLoop_no_cancel, scanAll, hdoc]

/-- Witness for C6: scanning `User` from `b.graphql` over the three fixture
files collects exactly the whole-word occurrences (one in each file). -/
theorem gql_reference_scan_pattern_witness :
    gqlProvideReferences [gqlDocA, gqlDocB, gqlDocC] gqlDocB 19 true (fun _ => false) =
      ([gqlDocA, gqlDocB, gqlDocC].map (fun d =>
        (wholeWordOccurrences d.text (escapeRegex (sliceSpan gqlDocB.text ⟨19, 23⟩))).map
          (fun j => Location.mk d.uri ⟨j, j + (sliceSpan gqlDocB.text ⟨19, 23⟩).length⟩))).flatten ∧
    gqlProvideReferences [gqlDocA, gqlDocB, gqlDocC] gqlDocB 19 true (fun _ => false) =
      [⟨"a.graphql", ⟨5, 9⟩⟩, ⟨"b.graphql", ⟨19, 23⟩⟩, ⟨"c.graphql", ⟨9, 13⟩⟩] := by
  refine ⟨?_, by decide⟩
  exact gql_reference_scan_pattern [gqlDocA, gqlDocB, gqlDocC] gqlDocB 19 true ⟨19, 23⟩
    (by decide) (by decide) (by decide)

theorem scanLoop_cancelled (name : List Char) (cancel : Nat → Bool) :
    ∀ (docs : List GQLDocument) (k i : Nat),
    (∀ j, j < k → cancel (i + j) = false) → cancel (i + k) = true →
    scanLoop name cancel docs i = scanAll (docs.take k) name := by
  intro docs
  induction docs with
  | nil => intro k i _ _; simp [scanLoop, scanAll]
  | cons d rest ih =>
    intro k i h1 h2
    cases k with
    | zero =>
      simp only [scanLoop]
      rw [if_pos (by simpa using h2)]
      simp [scanAll]
    | succ k' =>
      have hc0 : cancel i = false := by simpa using h1 0 (Nat.succ_pos k')
      simp only [scanLoop]
      rw [if_neg (by simp [hc0])]
      rw [ih k' (i + 1)
        (fun j hj => by
          have harith : i + 1 + j = i + (j + 1) := by omega
          rw [harith]
          exact h1 (j + 1) (by omega))
        (by
          have harith : i + 1 + k' = i + (k' + 1) := by omega
          rw [harith]
          exact h2)]
      rfl

theorem scanLoopChecks_cancelled (cancel : Nat → Bool) :
    ∀ (docs : List GQLDocument) (k i : Nat),
    (∀ j, j < k → cancel (i + j) = false) → cancel (i + k) = true →
    scanLoopChecks cancel docs i = min (k + 1) docs.length := by
  intro docs
  induction docs with
  | nil => intro k i _ _; simp [scanLoopChecks]
  | cons d rest ih =>
    intro k i h1 h2
    cases k with
    | zero =>
      have hc : cancel i = true := by simpa using h2
      simp only [scanLoopChecks, hc, if_pos]
      simp [Nat.min_def]
    | succ k' =>
      have hc0 : cancel i = false := by simpa using h1 0 (Nat.succ_pos k')
      simp only [scanLoopChecks, hc0]
      rw [if_neg (by simp)]
      rw [ih k' (i + 1)
        (fun j hj => by
          have harith : i + 1 + j = i + (j + 1) := by omega
          rw [harith]
          exact h1 (j + 1) (by omega))
        (by
          have harith : i + 1 + k' = i + (k' + 1) := by omega
          rw [harith]
          exact h2)]
      simp only [List.length_cons]
      omega

/-- C9: Cancellation semantics of the multi-file reference scan.  When the
progress token first reads `true` at the check of file `k`, the scan returns
exactly the locations accumulated from the first `k` files, as a normal
result; the token is consulted once per examined file — `min (k+1) n` checks
in total, a count independent of the file contents (never per match). -/
theorem gql_reference_scan_cancellation (docs : List GQLDocument) (doc : GQLDocument)
    (pos : Nat) (includeDeclaration : Bool) (cancel : Nat → Bool) (r : Span) (k : Nat)
    (hw : doc.wordRangeAt pos = some r)
    (h1 : ∀ j, j < k → cancel j = false) (h2 : cancel k = true) :
    gqlProvideReferences docs doc pos includeDeclaration cancel =
      scanAll (docs.take k) (sliceSpan doc.text r) ∧
    scanLoopChecks cancel docs 0 = min (k + 1) docs.length := by
  constructor
  · unfold gqlProvideReferences
    rw [hw]
    exact scanLoop_cancelled _ cancel docs k 0
      (fun j hj => by simpa using h1 j hj) (by simpa using h2)
  · exact scanLoopChecks_cancelled cancel docs k 0
      (fun j hj => by simpa using h1 j hj) (by simpa using h2)

/-- Witness for C9: with a token that reads `true` from the second check on,
scanning `User` over the three fixture files returns exactly the first file's
locations, and the token is consulted twice. -/
theorem gql_reference_scan_cancellation_witness :
    gqlProvideReferences [gqlDocA, gqlDocB, gqlDocC] gqlDocB 19 true
        (fun i => decide (0 < i)) =
      scanAll ([gqlDocA, gqlDocB, gqlDocC].take 1) (sliceSpan gqlDocB.text ⟨19, 23⟩) ∧
    scanLoopChecks (fun i => decide (0 < i)) [gqlDocA, gqlDocB, gqlDocC] 0 = 2 ∧
    scanAll ([gqlDocA, gqlDocB, gqlDocC].take 1) (sliceSpan gqlDocB.text ⟨19, 23⟩) =
      [⟨"a.graphql", ⟨5, 9⟩⟩] := by
  have h := gql_reference_scan_cancellation [gqlDocA, gqlDocB, gqlDocC] gqlDocB 19 true
    (fun i => decide (0 < i)) ⟨19, 23⟩ 1 (by decide)
    (by intro j hj; rw [Nat.lt_one_iff.mp hj]; rfl) (by decide)
  exact ⟨h.1, h.2, by decide⟩

theorem strStartsWith_mkKey (uri : String) (w : List Char) (incl : Bool) :
    strStartsWith (sqlMkRefKey uri w incl) (uri ++ "-") = true := by
  unfold strStartsWith sqlMkRefKey
  rw [ List.isPrefixOf_iff_prefix]
  have hassoc : uri ++ "-" ++ String.mk w ++ "-" ++ (if incl then "true" else "false") =
      (uri ++ "-") ++ (String.mk w ++ "-" ++ (if incl then "true" else "false")) := by
    simp [String.append_assoc]
  rw [hassoc, String.data_append]
  exact List.prefix_append _ _

/-- C7 (amended): the tabular-engine scanner memoizes per
`(document, word, includeDeclaration)` key — a repeated query with the same
key returns the memoized result and leaves the cache untouched — and
`clearCache` for a document removes exactly the entries whose key begins with
that document's URI followed by `-` (in particular every key of that
document), keeping all others.  An entry of a *different* document is also
removed when its key happens to begin with that prefix (URI prefix
collision), so removal is not confined to the changed document. -/
theorem sql_reference_memoization_and_invalidation :
    (∀ (cache : SQLCache) (doc : SQLDocument) (word : List Char) (incl : Bool),
      sqlFindReferences (sqlFindReferences cache doc word incl).2 doc word incl =
        sqlFindReferences cache doc word incl) ∧
    (∀ (uri : String) (cache : SQLCache) (kv : String × List Location),
      kv ∈ sqlClearCache uri cache ↔
        kv ∈ cache ∧ strStartsWith kv.1 (uri ++ "-") = false) ∧
    (∀ (uri : String) (cache : SQLCache) (word : List Char) (incl : Bool),
      assocGet (sqlClearCache uri cache) (sqlMkRefKey uri word incl) = none) := by
  refine ⟨?_, ?_, ?_⟩
  · intro cache doc word incl
    unfold sqlFindReferences
    cases hx : assocGet cache (sqlMkRefKey doc.uri word incl) with
    | some v => simp [hx]
    | none => simp [hx, assocGet_assocSet_self]
  · intro uri cache kv
    unfold sqlClearCache
    rw [List.mem_filter]
    simp [Bool.not_eq_true']
  · intro uri cache word incl
    unfold sqlClearCache assocGet
    rw [Option.map_eq_none']
    rw [List.find?_eq_none]
    intro kv hkv
    rw [List.mem_filter] at hkv
    intro hbeq
    have hk : kv.1 = sqlMkRefKey uri word incl := by simpa using hbeq
    have hpref := strStartsWith_mkKey uri word incl
    rw [← hk] at hpref
    simp [hpref] at hkv

/-- Counterexample to C7 as stated: the entry `findReferences` writes for the
document with URI `u-x` is removed by `clearCache` for the *different*
document with URI `u`, because its key `u-x-w-true` begins with `u-`. -/
theorem sql_clearCache_cross_document_counterexample :
    (sqlFindReferences [] sqlDocUX ['w'] true).2 =
      [("u-x-w-true", [⟨"u-x", ⟨13, 14⟩⟩])] ∧
    sqlClearCache "u" [("u-x-w-true", [⟨"u-x", ⟨13, 14⟩⟩])] = [] := by
  constructor <;> decide

/-- C8: `includeDeclaration` is a no-op.  The query/schema-engine scan reads
the flag but never uses it, so both flag values give identical results for
every input.  The tabular-engine scan keys its memo on the flag but computes
the same scan either way, so on every coherent cache state (all states the
provider itself produces) both flag values return the same location list. -/
theorem includeDeclaration_noop :
    (∀ (docs : List GQLDocument) (doc : GQLDocument) (pos : Nat) (cancel : Nat → Bool),
      gqlProvideReferences docs doc pos true cancel =
        gqlProvideReferences docs doc pos false cancel) ∧
    (∀ (cache : SQLCache) (doc : SQLDocument) (pos : Pos2),
      sqlRefCacheCoherent cache doc →
      (sqlProvideReferences cache doc pos true).1 =
        (sqlProvideReferences cache doc pos false).1) := by
  constructor
  · intro docs doc pos cancel
    rfl
  · intro cache doc pos hco
    unfold sqlProvideReferences
    cases hw : getWordRangeAt doc.text (posToOffset doc.text pos) with
    | none => simp only [hw]
    | some r =>
      simp only [hw]
      unfold sqlFindReferences
      cases h1 : assocGet cache (sqlMkRefKey doc.uri (sliceSpan doc.text r) true) with
      | some v1 =>
        cases h2 : assocGet cache (sqlMkRefKey doc.uri (sliceSpan doc.text r) false) with
        | some v2 =>
          have hv1 := hco (sliceSpan doc.text r) true v1 h1
          have hv2 := hco (sliceSpan doc.text r) false v2 h2
          simp [h1, h2, hv1, hv2]
        | none =>
          have hv1 := hco (sliceSpan doc.text r) true v1 h1
          simp [h1, h2, hv1]
      | none =>
        cases h2 : assocGet cache (sqlMkRefKey doc.uri (sliceSpan doc.text r) false) with
        | some v2 =>
          have hv2 := hco (sliceSpan doc.text r) false v2 h2
          simp [h1, h2, hv2]
        | none =>
          simp [h1, h2]

/-- Witness for C8: both engines at concrete inputs — scanning `User` over
the fixtures, and resolving `users` at the `SELECT` occurrence of the SQL
fixture with an empty (trivially coherent) cache. -/
theorem includeDeclaration_noop_witness :
    gqlProvideReferences [gqlDocA, gqlDocB, gqlDocC] gqlDocB 19 true (fun _ => false) =
      gqlProvideReferences [gqlDocA, gqlDocB, gqlDocC] gqlDocB 19 false (fun _ => false) ∧
    (sqlProvideReferences [] sqlDocUsers ⟨1, 15⟩ true).1 =
      (sqlProvideReferences [] sqlDocUsers ⟨1, 15⟩ false).1 ∧
    (sqlProvideReferences [] sqlDocUsers ⟨1, 15⟩ true).1 =
      [⟨"file:users.sql", ⟨13, 18⟩⟩, ⟨"file:users.sql", ⟨43, 48⟩⟩] := by
  refine ⟨includeDeclaration_noop.1 [gqlDocA, gqlDocB, gqlDocC] gqlDocB 19 (fun _ => false),
    includeDeclaration_noop.2 [] sqlDocUsers ⟨1, 15⟩ ?_, by decide⟩
  intro w b v h
  exact absurd h (by simp [assocGet])

/-- C10 (amended): whenever the `isOnDefinition` heuristic fires — the cursor
column lies within the first case-insensitive plain-substring occurrence of
the word after the first `create table|type` keyword match on the cursor's
line — the SQL definition provider returns `null`, regardless of the cache
and of any CREATE declarations in the document.  (The heuristic usually, but
not always, coincides with "the cursor is on the declared name": see the
counterexample.) -/
theorem sql_definition_on_declaration_guard
    (cache : SQLCache) (doc : SQLDocument) (pos : Pos2) (r : Span)
    (hw : getWordRangeAt doc.text (posToOffset doc.text pos) = some r)
    (hon : sqlIsOnDefinition doc pos (sliceSpan doc.text r) = true) :
    (sqlProvideDefinition cache doc pos).1 = none := by
  unfold sqlProvideDefinition
  simp only [hw]
  simp [hon]

/-- Witness for C10's amended guard: the cursor on the declared name `users`
in `CREATE TABLE users (id int);` makes the heuristic fire and the provider
returns `null`. -/
theorem sql_definition_on_declaration_guard_witness :
    sqlIsOnDefinition sqlDocUsers ⟨0, 14⟩ (sliceSpan sqlDocUsers.text ⟨13, 18⟩) = true ∧
    (sqlProvideDefinition [] sqlDocUsers ⟨0, 14⟩).1 = none := by
  refine ⟨by decide, ?_⟩
  exact sql_definition_on_declaration_guard [] sqlDocUsers ⟨0, 14⟩ ⟨13, 18⟩
    (by decide) (by decide)

/-- Counterexample to C10 as stated: in
`create table if not exists exist (x int);` the cursor at column 28 sits on
the declared name `exist` of a CREATE TABLE line, yet the provider does not
return `null` — the heuristic locates the first substring occurrence of
`exist` (inside the `exists` keyword, columns 20–25), the cursor misses it,
and the CREATE scan then returns a (mislocated) definition at `[20, 25)`. -/
theorem sql_definition_on_declaration_counterexample :
    getWordRangeAt sqlDocExist.text (posToOffset sqlDocExist.text ⟨0, 28⟩) =
      some ⟨27, 32⟩ ∧
    String.mk (sliceSpan sqlDocExist.text ⟨27, 32⟩) = "exist" ∧
    sqlIsOnDefinition sqlDocExist ⟨0, 28⟩ (sliceSpan sqlDocExist.text ⟨27, 32⟩) = false ∧
    (sqlProvideDefinition [] sqlDocExist ⟨0, 28⟩).1 =
      some [⟨"file:exist.sql", ⟨20, 25⟩⟩] := by
  refine ⟨by decide, by decide, by decide, by decide⟩
